import Mathlib

/-!
Verification development for the ROVODEV_RAG document-review pipeline.

The Python sources under `src/utils/` are shallowly embedded here:
text is modelled as `List Char`, the regex idioms that the code uses
(`re.split`, `re.search`, `re.findall` on the concrete patterns appearing
in the sources) are modelled by executable scanning functions that follow
the leftmost-match / greedy semantics of those concrete patterns, and the
external PDF library (PyMuPDF) is abstracted by oracle parameters (page count
of an opened document, geometric text search results).
-/

set_option maxHeartbeats 4000000

namespace Rag

/-- Convert a string literal to the `List Char` text representation. -/
def str (s : String) : List Char := s.data

/-- Python `str.strip` / `\s` whitespace over the ASCII range. -/
def isWS (c : Char) : Bool :=
  c = ' ' || c = '\t' || c = '\n' || c = '\r' || c = '\x0b' || c = '\x0c'

/-- Sentence-terminal punctuation used by `chunk_text`'s split pattern `(?<=[.!?])\s+`. -/
def isTermPunct (c : Char) : Bool := c = '.' || c = '!' || c = '?'

/-- ASCII decimal digit test (`\d`). -/
def isDig (c : Char) : Bool := '0' ≤ c && c ≤ '9'

/-- ASCII lower-casing, modelling Python `str.lower` on the inputs we treat. -/
def lowerC (c : Char) : Char :=
  if 'A' ≤ c && c ≤ 'Z' then Char.ofNat (c.toNat + 32) else c

/-- ASCII upper-casing (used by the model of Python `str.title`). -/
def upperC (c : Char) : Char :=
  if 'a' ≤ c && c ≤ 'z' then Char.ofNat (c.toNat - 32) else c

/-- ASCII letter test. -/
def isAlpha (c : Char) : Bool :=
  ('a' ≤ c && c ≤ 'z') || ('A' ≤ c && c ≤ 'Z')

/-- Lower-case a whole text (`line.lower()`). -/
def lowerL (cs : List Char) : List Char := cs.map lowerC

/-- Python `str.strip()`: drop whitespace from both ends. -/
def pstrip (cs : List Char) : List Char :=
  ((cs.dropWhile isWS).reverse.dropWhile isWS).reverse

/-- Python substring containment `needle in hay`. -/
def subIn (needle hay : List Char) : Bool :=
  match hay with
  | [] => needle.isEmpty
  | _ :: t => needle.isPrefixOf hay || subIn needle t

/-- `any(word in line_lower for word in ws)`. -/
def anySub (ll : List Char) (ws : List (List Char)) : Bool :=
  ws.any (fun w => subIn w ll)

/-- A text has a non-whitespace character. -/
def hasNonWS (cs : List Char) : Bool := cs.any (fun c => !isWS c)

/-- Python `s[-n:]` for `n < s.length` (the only way the chunker uses it). -/
def lastN (n : Nat) (cs : List Char) : List Char := cs.drop (cs.length - n)

/-- Drop leading `\s*`. -/
def dropWS (cs : List Char) : List Char := cs.dropWhile isWS

/-- Case-insensitive literal prefix match: `pat` is lower-case, the text is
lowered character-by-character (models `re.IGNORECASE` literal matching). -/
def lpre : List Char → List Char → Bool
  | [], _ => true
  | _ :: _, [] => false
  | p :: ps, c :: cs => p = lowerC c && lpre ps cs

/-- Python `text.split('\n')` (keeps empty pieces, `"" ↦ [""]`). -/
def splitLines : List Char → List (List Char)
  | [] => [[]]
  | c :: t =>
    if c = '\n' then [] :: splitLines t
    else
      match splitLines t with
      | l :: ls => (c :: l) :: ls
      | [] => [[c]]

/-- Index the elements of a list starting at `k` (used for `enumerate`). -/
def enumFrom : Nat → List α → List (Nat × α)
  | _, [] => []
  | k, a :: t => (k, a) :: enumFrom (k + 1) t

/-- Digit run to the integer Python's `int` would produce. -/
def digitsVal (ds : List Char) : Nat :=
  ds.foldl (fun n c => n * 10 + (c.toNat - 48)) 0

end Rag

namespace Rag

/-! ## `pdf_processor.chunk_text` (src/utils/pdf_processor.py:117-191)

`re.split(r'(?<=[.!?])\s+', page_text)`: a separator is a maximal
whitespace run immediately preceded by a terminal punctuation character;
separators are removed. Modelled with fuel = length of the text, which the
recursion never exhausts (each step strictly shortens the text). -/

/-- Does the text start with a whitespace character? -/
def headWS : List Char → Bool
  | [] => false
  | c :: _ => isWS c

/-- Worker for the sentence split of `chunk_text`. -/
def splitSentsF : Nat → List Char → List Char → List (List Char)
  | 0, _, acc => [acc.reverse]
  | _ + 1, [], acc => [acc.reverse]
  | f + 1, c :: rest, acc =>
    if isTermPunct c && headWS rest then
      (acc.reverse ++ [c]) :: splitSentsF f (rest.dropWhile isWS) []
    else
      splitSentsF f rest (c :: acc)

/-- `re.split(r'(?<=[.!?])\s+', page_text)`. -/
def splitSentences (cs : List Char) : List (List Char) :=
  splitSentsF cs.length cs []

/-- `extract_text_with_metadata` page record (the fields `chunk_text` reads). -/
structure PageData where
  page_num : Nat
  text : List Char
deriving DecidableEq, Repr

/-- A chunk record as produced by `chunk_text`. -/
structure Chunk where
  text : List Char
  chunk_id : Nat
  page_num : Nat
  start_char : Nat
  end_char : Nat
deriving DecidableEq, Repr

/-- The per-page sentence accumulation loop of `chunk_text`
(src/utils/pdf_processor.py:155-189), returning the chunks of the page in
order together with the next global `chunk_id`. -/
def chunkGo (pgn csz ov : Nat) :
    List (List Char) → List Char → Nat → Nat → List Chunk × Nat
  | [], cur, start, id =>
    if pstrip cur ≠ [] then
      ([⟨pstrip cur, id, pgn, start, start + cur.length⟩], id + 1)
    else ([], id)
  | s :: rest, cur, start, id =>
    if cur.length + s.length > csz ∧ cur ≠ [] then
      let ck : Chunk := ⟨pstrip cur, id, pgn, start, start + cur.length⟩
      if cur.length > ov then
        let ovt := lastN ov cur
        let cur' := ovt ++ ' ' :: s
        let start' := start + cur'.length - ovt.length - s.length - 1
        let r := chunkGo pgn csz ov rest cur' start' (id + 1)
        (ck :: r.1, r.2)
      else
        let r := chunkGo pgn csz ov rest s (start + s.length - s.length) (id + 1)
        (ck :: r.1, r.2)
    else
      chunkGo pgn csz ov rest (if cur = [] then s else cur ++ ' ' :: s) start id

/-- One iteration of the page loop of `chunk_text`: blank pages are skipped,
otherwise the page's text is split into sentences and accumulated. -/
def chunkPage (pg : PageData) (csz ov id : Nat) : List Chunk × Nat :=
  if pstrip pg.text = [] then ([], id)
  else chunkGo pg.page_num csz ov (splitSentences pg.text) [] 0 id

/-- `chunk_text(pages_data, chunk_size=500, overlap=100)`. -/
def chunk_text (pages_data : List PageData)
    (chunk_size : Nat := 500) (overlap : Nat := 100) : List Chunk :=
  (pages_data.foldl
    (fun st pg =>
      let r := chunkPage pg chunk_size overlap st.2
      (st.1 ++ r.1, r.2))
    (([] : List Chunk), 0)).1

/-- Length of the longest sentence the splitter produces for a page text. -/
def longestSentence (cs : List Char) : Nat :=
  (splitSentences cs).foldl (fun m s => max m s.length) 0

/-- A sentence ends with terminal punctuation. -/
def endsPunct (s : List Char) : Bool :=
  match s.getLast? with
  | some c => isTermPunct c
  | none => false

/-- Every non-final element of a sentence list ends with terminal
punctuation (an invariant of the splitter: each non-final sentence is
followed by a separator, whose lookbehind is that punctuation). -/
def nfp : List (List Char) → Prop
  | [] => True
  | [_] => True
  | s :: rest => (endsPunct s = true) ∧ nfp rest

end Rag

namespace Rag

/-! ## `groq_client.parse_critique_for_issues` (src/utils/groq_client.py:75-178) -/

/-- The quote character. -/
def qc : Char := '"'

/-- Split a text at its first `"`: returns the part before and after it. -/
def breakQ : List Char → Option (List Char × List Char)
  | [] => none
  | c :: t =>
    if c = qc then some ([], t)
    else
      match breakQ t with
      | some (a, b) => some (c :: a, b)
      | none => none

/-- Worker for `re.findall(r'"([^\x22]{20,200})"', text)`: at each opening
quote the candidate content runs to the next quote; if its length is in
`[20,200]` it is a match and scanning resumes after the closing quote,
otherwise scanning resumes at the closing quote (the next `"` after the
failed start position). Fuel = length of the text, never exhausted. -/
def quoteSpansF : Nat → List Char → List (List Char)
  | 0, _ => []
  | f + 1, cs =>
    match breakQ cs with
    | none => []
    | some (_, r1) =>
      match breakQ r1 with
      | none => []
      | some (c1, r2) =>
        if 20 ≤ c1.length ∧ c1.length ≤ 200 then c1 :: quoteSpansF f r2
        else quoteSpansF f (qc :: r2)

/-- `re.findall` of the quote pattern `"([^\x22]{20,200})"`. -/
def quoteSpans (cs : List Char) : List (List Char) := quoteSpansF cs.length cs

/-- `\s*` then a digit run `(\d+)`; `none` when no digit follows. -/
def digitsAfter (cs : List Char) : Option (List Char) :=
  let d := (dropWS cs).takeWhile isDig
  if d = [] then none else some d

/-- Try the page pattern `(?:page|pg\.?|p\.)\s*(\d+)` (IGNORECASE) at the
start of the text, returning the captured digit run. -/
def pageAt (cs : List Char) : Option (List Char) :=
  if lpre (str ("page")) cs then digitsAfter (cs.drop 4)
  else if lpre (str ("pg")) cs then
    match cs.drop 2 with
    | '.' :: r => digitsAfter r
    | r => digitsAfter r
  else if lpre (str ("p.")) cs then digitsAfter (cs.drop 2)
  else none

/-- Leftmost match of the page pattern (`re.search`). -/
def findPageL : List Char → Option Nat
  | [] => none
  | c :: t =>
    match pageAt (c :: t) with
    | some ds => some (digitsVal ds)
    | none => findPageL t

/-- `re.search(page_pattern, line, re.IGNORECASE)` → captured page number. -/
def findPage (line : List Char) : Option Nat := findPageL line

/-- An issue dictionary as produced by `parse_critique_for_issues`. -/
structure Issue where
  type : List Char
  severity : List Char
  text_snippet : List Char
  suggestion : List Char
  page_hint : Option Nat
deriving DecidableEq, Repr

/-- The severity-keyword lists of lines 113-121. -/
def sevCritWords : List (List Char) :=
  [str ("critical"), str ("major issue"), str ("serious"), str ("fatal"), str ("fundamental")]

def sevMajorWords : List (List Char) :=
  [str ("major"), str ("significant"), str ("important")]

def sevMinorWords : List (List Char) :=
  [str ("minor"), str ("small"), str ("typo"), str ("grammar")]

def sevSuggWords : List (List Char) :=
  [str ("suggest"), str ("could"), str ("might"), str ("consider"), str ("recommendation")]

def sevStrengthWords : List (List Char) :=
  [str ("strength"), str ("well-written"), str ("excellent"), str ("good"), str ("clear")]

/-- The severity-detection cascade (lines 112-123); the strength branch also
switches the current type. State is `(current_type, current_severity)`. -/
def updSev (tp sv ll : List Char) : List Char × List Char :=
  if anySub ll sevCritWords then (tp, str ("critical"))
  else if anySub ll sevMajorWords then (tp, str ("major"))
  else if anySub ll sevMinorWords then (tp, str ("minor"))
  else if anySub ll sevSuggWords then (tp, str ("suggestion"))
  else if anySub ll sevStrengthWords then (str ("strength"), str ("strength"))
  else (tp, sv)

/-- The type-detection cascade with its severity floors/caps (lines 125-139). -/
def updType (p : List Char × List Char) (ll : List Char) : List Char × List Char :=
  if subIn (str ("methodology")) ll || subIn (str ("research design")) ll then
    (str ("methodology"),
      if p.2 = str ("critical") ∨ p.2 = str ("strength") then p.2 else str ("major"))
  else if subIn (str ("grammar")) ll || subIn (str ("spelling")) ll
      || subIn (str ("typo")) ll then
    (str ("grammar"),
      if p.2 = str ("critical") ∨ p.2 = str ("major") then p.2 else str ("minor"))
  else if subIn (str ("writing")) ll || subIn (str ("clarity")) ll
      || subIn (str ("style")) ll then
    (str ("clarity"), p.2)
  else if subIn (str ("logic")) ll || subIn (str ("argument")) ll
      || subIn (str ("reasoning")) ll then
    (str ("logic"), if p.2 = str ("minor") then str ("major") else p.2)
  else p

/-- Classification state after one line: severity update then type update. -/
def stepState (tp sv ll : List Char) : List Char × List Char :=
  updType (updSev tp sv ll) ll

/-- Does a line start with `#` (`line.startswith('#')`)? -/
def startsHash : List Char → Bool
  | '#' :: _ => true
  | _ => false

/-- The suggestion accumulated from lines `i+1 .. min(i+4, len)-1`
(lines 148-151): non-blank lines not starting with `#`, stripped and
joined with trailing spaces. -/
def sugLines (lines : List (List Char)) (i : Nat) : List Char :=
  (((List.range 3).map (fun k => i + 1 + k)).filterMap (fun j =>
    match lines.get? j with
    | some l =>
      if pstrip l ≠ [] ∧ ¬ (startsHash l = true) then some (pstrip l ++ [' '])
      else none
    | none => none)).flatten

/-- The final suggestion string of an issue (line 163). -/
def mkSuggestion (lines : List (List Char)) (i : Nat) : List Char :=
  let sug := sugLines lines i
  if pstrip sug ≠ [] then pstrip (sug.take 200)
  else str ("Review and improve this section")

/-- The anchor-line extraction (lines 142-165): a line containing `"` with
at least one line after it, whose first quote-pattern match gives the
snippet; classification state `tp`/`sv` is the state after this line. -/
def issueAtLine (lines : List (List Char)) (i : Nat) (tp sv : List Char)
    (line : List Char) : Option Issue :=
  if subIn [qc] line = true ∧ i + 1 < lines.length then
    match (quoteSpans line).head? with
    | some snip =>
      some ⟨tp, sv, snip.take 150, mkSuggestion lines i, findPage line⟩
    | none => none
  else none

/-- The line loop of `parse_critique_for_issues` over indexed lines. -/
def scanIssuesAux (lines : List (List Char)) :
    List (Nat × List Char) → List Char → List Char → List Issue
  | [], _, _ => []
  | (i, line) :: rest, tp, sv =>
    let st := stepState tp sv (lowerL line)
    (match issueAtLine lines i st.1 st.2 line with
     | some iss => [iss]
     | none => []) ++ scanIssuesAux lines rest st.1 st.2

/-- The full line scan, starting from `('general', 'major')`. -/
def scanIssues (lines : List (List Char)) : List Issue :=
  scanIssuesAux lines (enumFrom 0 lines) (str ("general")) (str ("major"))

/-- `parse_critique_for_issues(critique_text)`: the line scan, with the
quote-based fallback (lines 167-176) when the scan found nothing but the
text contains quote-pattern matches. -/
def parse_critique_for_issues (critique_text : List Char) : List Issue :=
  let quotes := quoteSpans critique_text
  let issues := scanIssues (splitLines critique_text)
  if issues = [] ∧ quotes ≠ [] then
    (quotes.take 5).map (fun q =>
      ⟨str ("general"), str ("major"), q.take 150,
        str ("Review and revise this section"), none⟩)
  else issues

end Rag

namespace Rag

/-! ## `groq_client.parse_rewrite_suggestions` (src/utils/groq_client.py:181-227) -/

/-- A rewrite dictionary. -/
structure Rewrite where
  original : List Char
  suggested : List Char
  explanation : List Char
  page_num : Option Nat
deriving DecidableEq, Repr

/-- Try one of the arrow tokens `→`, `->`, `should be`, `could be`,
`replace with` (IGNORECASE, in the pattern's alternation order) at the
start of the text; return the rest after the token. -/
def matchAlt (cs : List Char) : Option (List Char) :=
  if lpre (str ("→")) cs then some (cs.drop 1)
  else if lpre (str ("->")) cs then some (cs.drop 2)
  else if lpre (str ("should be")) cs then some (cs.drop 9)
  else if lpre (str ("could be")) cs then some (cs.drop 8)
  else if lpre (str ("replace with")) cs then some (cs.drop 12)
  else none

/-- Worker for `re.findall` of
`"([^\x22]+)"\s*(?:→|->|should be|could be|replace with)\s*"([^\x22]+)"`:
leftmost non-overlapping matches; when a candidate starting at some quote
fails, scanning resumes at the closing quote of its first quoted part. -/
def findRewritesF : Nat → List Char → List (List Char × List Char)
  | 0, _ => []
  | f + 1, cs =>
    match breakQ cs with
    | none => []
    | some (_, r1) =>
      match breakQ r1 with
      | none => []
      | some (c1, r2) =>
        if c1 = [] then findRewritesF f (qc :: r2)
        else
          match matchAlt (dropWS r2) with
          | none => findRewritesF f (qc :: r2)
          | some r4 =>
            match dropWS r4 with
            | c :: r5 =>
              if c = qc then
                match breakQ r5 with
                | some (c2, r7) =>
                  if c2 ≠ [] then (c1, c2) :: findRewritesF f r7
                  else findRewritesF f (qc :: r2)
                | none => findRewritesF f (qc :: r2)
              else findRewritesF f (qc :: r2)
            | [] => findRewritesF f (qc :: r2)

/-- `re.findall` of the arrow pattern. -/
def findRewrites (cs : List Char) : List (List Char × List Char) :=
  findRewritesF cs.length cs

/-- Python `text.find(needle)`: index of the leftmost occurrence. -/
def firstIdxSub : List Char → List Char → Option Nat
  | [], needle => if needle = [] then some 0 else none
  | c :: t, needle =>
    if needle.isPrefixOf (c :: t) then some 0
    else (firstIdxSub t needle).map (· + 1)

/-- `parse_rewrite_suggestions(critique_text)`: each arrow match becomes a
rewrite whose page number is searched in a ±100-character window around
the first occurrence of the original text (lines 208-225); capped at 10. -/
def parse_rewrite_suggestions (critique_text : List Char) : List Rewrite :=
  ((findRewrites critique_text).map (fun m =>
    let pnum :=
      match firstIdxSub critique_text m.1 with
      | some f =>
        let ctxStart := f - 100
        let ctxEnd := min critique_text.length (f + 100)
        findPage ((critique_text.drop ctxStart).take (ctxEnd - ctxStart))
      | none =>
        findPage (critique_text.take (min critique_text.length 99))
    ⟨m.1.take 100, m.2.take 100,
      str ("Improves clarity and correctness"), pnum⟩)).take 10

end Rag

namespace Rag

/-! ## `groq_client.parse_section_summaries` (src/utils/groq_client.py:230-319) -/

/-- A section summary dictionary (`section` is a Lean keyword; the field is
named `section_name`). -/
structure Summary where
  section_name : List Char
  page_num : Option Nat
  strengths : List (List Char)
  issues : List (List Char)
  suggestions : List (List Char)
  score : Nat
deriving DecidableEq, Repr

/-- Optionally consume one character (case-insensitively) — `[x]?`. -/
def optCI (c : Char) (cs : List Char) : List Char :=
  match cs with
  | x :: t => if lowerC x = c then t else cs
  | [] => []

/-- Consume a maximal run of characters from a set (case-insensitively) —
character-class star such as `[es]*`. -/
def starCI (set : List Char) (cs : List Char) : List Char :=
  cs.dropWhile (fun x => set.contains (lowerC x))

/-- The common tail `\s*[-•]\s*([^\n]+)` of every bullet pattern: maximal
whitespace, a bullet, maximal whitespace, then a non-empty capture up to
the end of the line; when the greedy whitespace reaches the end of the
text, the regex backtracks to the last non-newline whitespace character.
Returns the capture and the rest of the text after the match. -/
def tailCap (cs : List Char) : Option (List Char × List Char) :=
  match dropWS cs with
  | b :: r =>
    if b = '-' ∨ b = '•' then
      let r2 := dropWS r
      match r2 with
      | _ :: _ =>
        some (r2.takeWhile (fun x => x ≠ '\n'), r2.dropWhile (fun x => x ≠ '\n'))
      | [] =>
        let w2 := r.takeWhile isWS
        match w2.reverse.dropWhile (fun x => x = '\n') with
        | c :: _ => some ([c], (w2.reverse.takeWhile (fun x => x = '\n')).reverse)
        | [] => none
    else none
  | [] => none

/-- A bullet pattern of shape `kw[s]?:?` + tail (e.g. `issue[s]?:?\s*[-•]\s*([^\n]+)`). -/
def patPlural (kw : List Char) (cs : List Char) : Option (List Char × List Char) :=
  if lpre kw cs then tailCap (optCI ':' (optCI 's' (cs.drop kw.length)))
  else none

/-- A bullet pattern of shape `kw:?` + tail (e.g. `good:?\s*[-•]\s*([^\n]+)`). -/
def patColon (kw : List Char) (cs : List Char) : Option (List Char × List Char) :=
  if lpre kw cs then tailCap (optCI ':' (cs.drop kw.length))
  else none

/-- A bullet pattern of shape `kw[set]*[s]?:?` + tail
(`weakness[es]*:?`, `suggest[ion]*[s]?:?`, `recommend[ation]*[s]?:?`). -/
def patStar (kw : List Char) (set : List Char) (plural : Bool) (cs : List Char) :
    Option (List Char × List Char) :=
  if lpre kw cs then
    let r := starCI set (cs.drop kw.length)
    tailCap (optCI ':' (if plural then optCI 's' r else r))
  else none

/-- The pattern `well[- ](?:written|done):?` + tail. -/
def patWell (cs : List Char) : Option (List Char × List Char) :=
  if lpre (str ("well")) cs then
    match cs.drop 4 with
    | c :: r =>
      if c = '-' ∨ c = ' ' then
        if lpre (str ("written")) r then tailCap (optCI ':' (r.drop 7))
        else if lpre (str ("done")) r then tailCap (optCI ':' (r.drop 4))
        else none
      else none
    | [] => none
  else none

/-- Generic `re.findall` scanner for one bullet pattern: leftmost matches,
scanning resumes after each match's end. Fuel = length of the text. -/
def scanPatF (m : List Char → Option (List Char × List Char)) :
    Nat → List Char → List (List Char)
  | 0, _ => []
  | _ + 1, [] => []
  | f + 1, c :: t =>
    match m (c :: t) with
    | some (cap, rest) => cap :: scanPatF m f rest
    | none => scanPatF m f t

def scanPat (m : List Char → Option (List Char × List Char)) (cs : List Char) :
    List (List Char) := scanPatF m cs.length cs

/-- The three strength patterns of lines 268-274, concatenated in order. -/
def strengthCaps (cs : List Char) : List (List Char) :=
  scanPat (patPlural (str ("strength"))) cs
    ++ scanPat (patColon (str ("good"))) cs
    ++ scanPat patWell cs

/-- The four issue patterns of lines 278-285. -/
def issueCaps (cs : List Char) : List (List Char) :=
  scanPat (patPlural (str ("issue"))) cs
    ++ scanPat (patPlural (str ("problem"))) cs
    ++ scanPat (patPlural (str ("concern"))) cs
    ++ scanPat (patStar (str ("weakness")) (str ("es")) false) cs

/-- The three suggestion patterns of lines 289-295. -/
def suggestionCaps (cs : List Char) : List (List Char) :=
  scanPat (patStar (str ("suggest")) (str ("ion")) true) cs
    ++ scanPat (patStar (str ("recommend")) (str ("ation")) true) cs
    ++ scanPat (patColon (str ("should"))) cs

/-- Try `score:?\s*(\d+)(?:/10)?` at the start of the text. -/
def scoreAt (cs : List Char) : Option Nat :=
  if lpre (str ("score")) cs then
    match digitsAfter (optCI ':' (cs.drop 5)) with
    | some d => some (digitsVal d)
    | none => none
  else none

/-- `re.search` of the score pattern (lines 298-301). -/
def scoreSearch : List Char → Option Nat
  | [] => none
  | c :: t =>
    match scoreAt (c :: t) with
    | some n => some n
    | none => scoreSearch t

/-- Try `##\s*{section}[^#]*` (IGNORECASE) at the start of the text,
returning the whole matched span (`group(0)`). -/
def sectionAt (sec : List Char) (cs : List Char) : Option (List Char) :=
  match cs with
  | '#' :: '#' :: r =>
    let w := r.takeWhile isWS
    let r2 := r.dropWhile isWS
    if lpre sec r2 then
      some ('#' :: '#' :: (w ++ r2.take sec.length
        ++ (r2.drop sec.length).takeWhile (fun c => c ≠ '#')))
    else none
  | _ => none

/-- `re.search` of the section pattern (lines 260-261). -/
def sectionSearch (sec : List Char) : List Char → Option (List Char)
  | [] => none
  | c :: t =>
    match sectionAt sec (c :: t) with
    | some m => some m
    | none => sectionSearch sec t

/-- Model of Python `str.title()` over ASCII. -/
def titleizeAux : Bool → List Char → List Char
  | _, [] => []
  | prevAlpha, c :: t =>
    (if isAlpha c then (if prevAlpha then lowerC c else upperC c) else c)
      :: titleizeAux (isAlpha c) t

def titleize (cs : List Char) : List Char := titleizeAux false cs

/-- The fixed section vocabulary (lines 253-256). -/
def sectionNames : List (List Char) :=
  [str ("abstract"), str ("introduction"), str ("literature review"),
   str ("methodology"), str ("results"), str ("discussion"), str ("conclusion")]

/-- `parse_section_summaries(critique_text)`. -/
def parse_section_summaries (critique_text : List Char) : List Summary :=
  sectionNames.filterMap (fun sec =>
    match sectionSearch sec critique_text with
    | none => none
    | some content =>
      let strengths := strengthCaps content
      let issues := issueCaps content
      let suggestions := suggestionCaps content
      let score := match scoreSearch content with | some n => n | none => 7
      let pnum := findPage content
      if strengths ≠ [] ∨ issues ≠ [] ∨ suggestions ≠ [] then
        some ⟨titleize sec, pnum, strengths.take 3, issues.take 3,
          suggestions.take 3, min 10 (max 1 score)⟩
      else none)

end Rag

namespace Rag

/-! ## `pdf_processor.validate_pdf` (src/utils/pdf_processor.py:10-43)

`fitz.open` is external; it is abstracted by `parsed : Option Nat`, the
page count of the opened document when the bytes parse (`none` models the
exception raised on unparseable input, with message text `err`). The byte
string itself is abstracted by its length `byteLen`: the code reads only
`len(pdf_bytes)`. Decimal rendering of `size_mb` keeps one fractional
digit (truncated); only its non-emptiness matters to any claim. -/

/-- Decimal digits of a natural number. -/
def natDigits (n : Nat) : List Char := (toString n).data

/-- Render `len/1048576` with one fractional digit for the error message. -/
def fmtMB (byteLen : Nat) : List Char :=
  natDigits (byteLen * 10 / 1048576 / 10) ++ ('.' :: natDigits (byteLen * 10 / 1048576 % 10))

/-- `validate_pdf(pdf_bytes)` → `(is_valid, error_message)`.
`size_mb > 10` over exact reals is `byteLen > 10 * 1048576`. -/
def validate_pdf (byteLen : Nat) (parsed : Option Nat) (err : List Char) :
    Bool × List Char :=
  if byteLen > 10 * 1048576 then
    (false, str ("File too large (") ++ fmtMB byteLen
      ++ str ("MB). Maximum 10MB allowed."))
  else
    match parsed with
    | none => (false, str ("Invalid or corrupted PDF file: ") ++ err)
    | some page_count =>
      if page_count > 50 then
        (false, str ("Too many pages (") ++ natDigits page_count
          ++ str ("). Recommended maximum is 50 pages for optimal performance."))
      else if page_count = 0 then
        (false, str ("PDF appears to be empty."))
      else (true, [])

end Rag

namespace Rag

/-! ## `annotator.create_annotated_pdf` issue loop (src/utils/annotator.py:42-181)

The PyMuPDF document is abstracted by its page count `pc` and a pure
geometric-search oracle `found searchText page` modelling
`page.search_for(search_text) ≠ []`. The drawing calls are recorded:
`highlights` collects each `(text_snippet, page)` for which a highlight
annot is drawn, `notes` each `(page, comment_number)` sticky-note
fallback. The legend, section-summary boxes and rewrite overlays of
`create_annotated_pdf` draw no snippet highlights and are not modelled. -/

/-- An issue as consumed by the annotator (`issue.get(...)` fields). -/
structure AnnIssue where
  text_snippet : List Char
  severity : List Char
  suggestion : List Char
  type : List Char
  page_hint : Option Nat
deriving DecidableEq, Repr

/-- Run-scoped mutable state of one annotation run. -/
structure AnnState where
  highlighted : List (List Char)
  counter : Nat
  highlights : List (List Char × Nat)
  notes : List (Nat × Nat)
deriving DecidableEq, Repr

/-- `range(a, b)` as an ascending list. -/
def rangeAB (a b : Nat) : List Nat := (List.range (b - a)).map (a + ·)

/-- The page search range of `add_issue_annotation` (lines 133-140):
`range(max(0, hint-2), min(page_count, hint+1))` when the hint is truthy,
else the first `min(20, page_count)` pages. -/
def pagesToSearch (pc : Nat) (hint : Option Nat) : List Nat :=
  match hint with
  | some h => if h ≠ 0 then rangeAB (h - 2) (min pc (h + 1)) else rangeAB 0 (min 20 pc)
  | none => rangeAB 0 (min 20 pc)

/-- `add_issue_annotation(doc, issue, highlighted_texts, comment_counter)`
(lines 105-181), acting on the run state. -/
def addIssueAnn (pc : Nat) (found : List Char → Nat → Bool)
    (st : AnnState) (iss : AnnIssue) : AnnState :=
  if iss.text_snippet ∈ st.highlighted then st
  else
    match (pagesToSearch pc iss.page_hint).find?
        (fun p => found (iss.text_snippet.take 50) p) with
    | some p =>
      { highlighted := iss.text_snippet :: st.highlighted,
        counter := st.counter + 1,
        highlights := st.highlights ++ [(iss.text_snippet, p)],
        notes := st.notes }
    | none =>
      match iss.page_hint with
      | some h =>
        if h ≠ 0 ∧ h - 1 < pc then
          { st with counter := st.counter + 1, notes := st.notes ++ [(h - 1, st.counter)] }
        else st
      | none => st

/-- The issue loop of `create_annotated_pdf` (lines 66-82): fresh
`highlighted_texts` set and `comment_counter = 1`, then each issue in
order. -/
def create_annotated_pdf (pc : Nat) (found : List Char → Nat → Bool)
    (issues : List AnnIssue) : AnnState :=
  issues.foldl (addIssueAnn pc found) ⟨[], 1, [], []⟩

/-- Number of highlights drawn for a given snippet. -/
def countFor (st : AnnState) (s : List Char) : Nat :=
  (st.highlights.filter (fun h => h.1 = s)).length

end Rag

namespace Rag

/-! ## Concrete inputs used by the claims -/

/-- The end-to-end critique text of claim C1 / spec property 9. -/
def tC1 : List Char :=
  str ("## MAJOR Issues\n- \"The study aims to investigate factors affecting student performance.\" (Page 1)\n  Problem: too broad\n  Suggestion: specify factors")

/-- A critique whose anchor line carries both a strength keyword and the
word methodology. -/
def tC2 : List Char :=
  str ("good methodology \"this snippet is long enough ok\"\nok")

/-- The first (anchor) line of `tC2`. -/
def tC2line : List Char :=
  str ("good methodology \"this snippet is long enough ok\"")

/-- The issue `parse_critique_for_issues` extracts from `tC2`. -/
def issC2 : Issue :=
  ⟨str ("methodology"), str ("strength"),
    str ("this snippet is long enough ok"), str ("ok"), none⟩

/-- The numeric weight of the severity ordering
critical > major > minor > suggestion > strength used by the claims. -/
def sevRank (s : List Char) : Nat :=
  if s = str ("critical") then 4
  else if s = str ("major") then 3
  else if s = str ("minor") then 2
  else if s = str ("suggestion") then 1
  else 0

/-- A section block with an out-of-range score `99/10`. -/
def tC8a : List Char := str ("## methodology\nIssues: - vague\nScore: 99/10")

/-- A section block containing `Score: -5`. -/
def tC8b : List Char := str ("## methodology\nIssues: - bad\nScore: -5")

/-- The summary produced for `tC8a`. -/
def sumC8 : Summary :=
  ⟨str ("Methodology"), none, [], [str ("vague")], [], 10⟩

/-- A single-line critique whose only quote span has no following line. -/
def tC9 : List Char :=
  str ("nothing here but \"this is a quoted span over twenty chars\" end")

/-- An issue fed twice to the annotator in the C5 witness. -/
def issW : AnnIssue :=
  ⟨str ("a duplicated snippet"), str ("major"), str ("fix"), str ("general"), none⟩

/-- A page whose sentences are separated by a newline. -/
def pgC3 : PageData := ⟨1, str ("Hi.\nBye.")⟩

/-- A small one-page input for the chunker witnesses. -/
def pgW : PageData := ⟨1, str ("One. Two.")⟩

/-- The single chunk the chunker produces for `pgW`. -/
def cW : Chunk := ⟨str ("One. Two."), 0, 1, 0, 9⟩

/-- A whitespace-only page. -/
def pgBlank : PageData := ⟨2, str ("   ")⟩

/-- Two lines whose only quote span sits on the final line. -/
def lnsC10 : List (List Char) :=
  [str ("no quotes on this line"),
   str ("- \"a quoted span with well over twenty characters\"")]

end Rag

namespace Rag

/-! ## Helper lemmas -/

theorem subIn_single (a : Char) (l : List Char) : subIn [a] l = true ↔ a ∈ l := by
  induction l with
  | nil =>
    show List.isEmpty [a] = true ↔ a ∈ ([] : List Char)
    simp
  | cons c t ih =>
    have hpre : (List.isPrefixOf [a] (c :: t)) = (a == c) := by
      show (a == c && List.isPrefixOf ([] : List Char) t) = (a == c)
      simp [List.isPrefixOf]
    rw [show subIn [a] (c :: t) = (List.isPrefixOf [a] (c :: t) || subIn [a] t) from rfl,
      hpre]
    simp [ih]

theorem splitLines_ne_nil : ∀ cs : List Char, splitLines cs ≠ [] := by
  intro cs
  cases cs with
  | nil => simp [splitLines]
  | cons c t =>
    simp only [splitLines]
    split
    · simp
    · split <;> simp

theorem splitLines_chars : ∀ (cs l : List Char), l ∈ splitLines cs → ∀ c ∈ l, c ∈ cs := by
  intro cs
  induction cs with
  | nil =>
    intro l hl c hc
    simp [splitLines] at hl
    subst hl
    simp at hc
  | cons a t ih =>
    intro l hl c hc
    simp only [splitLines] at hl
    by_cases ha : a = '\n'
    · rw [if_pos ha] at hl
      rcases List.mem_cons.mp hl with h | h
      · subst h; simp at hc
      · exact List.mem_cons_of_mem a (ih l h c hc)
    · rw [if_neg ha] at hl
      rcases hsp : splitLines t with _ | ⟨l0, ls⟩
      · exact absurd hsp (splitLines_ne_nil t)
      · rw [hsp] at hl
        rcases List.mem_cons.mp hl with h | h
        · subst h
          rcases List.mem_cons.mp hc with h' | h'
          · exact List.mem_cons.mpr (Or.inl h')
          · exact List.mem_cons_of_mem a
              (ih l0 (by rw [hsp]; exact List.mem_cons_self l0 ls) c h')
        · exact List.mem_cons_of_mem a
            (ih l (by rw [hsp]; exact List.mem_cons_of_mem l0 h) c hc)

theorem breakQ_none : ∀ cs : List Char, qc ∉ cs → breakQ cs = none := by
  intro cs
  induction cs with
  | nil => intro _; rfl
  | cons c t ih =>
    intro h
    have hc : ¬ (c = qc) := fun hc => h (by simp [hc])
    simp [breakQ, hc, ih (fun hm => h (List.mem_cons_of_mem c hm))]

theorem quoteSpans_nil {cs : List Char} (h : qc ∉ cs) : quoteSpans cs = [] := by
  unfold quoteSpans
  cases cs with
  | nil => rfl
  | cons c t =>
    simp only [List.length_cons]
    simp [quoteSpansF, breakQ_none _ h]

theorem enumFrom_mem : ∀ (ls : List α) (k i : Nat) (a : α), (i, a) ∈ enumFrom k ls →
    ∃ j, j < ls.length ∧ i = k + j ∧ ls.get? j = some a := by
  intro ls
  induction ls with
  | nil => intro k i a h; simp [enumFrom] at h
  | cons x t ih =>
    intro k i a h
    simp only [enumFrom, List.mem_cons] at h
    rcases h with h | h
    · injection h with h1 h2
      subst h1
      subst h2
      exact ⟨0, by simp, by omega, by simp⟩
    · obtain ⟨j, hj, hi, hget⟩ := ih (k + 1) i a h
      exact ⟨j + 1, by simpa using hj, by omega, by simpa using hget⟩

theorem mem_dropLast_of_get? : ∀ (l : List α) (j : Nat) (a : α),
    l.get? j = some a → j + 1 < l.length → a ∈ l.dropLast := by
  intro l
  induction l with
  | nil => intro j a h _; simp at h
  | cons x t ih =>
    intro j a hget hlt
    cases t with
    | nil => simp at hlt
    | cons y t' =>
      have hdl : (x :: y :: t').dropLast = x :: (y :: t').dropLast := rfl
      rw [hdl]
      cases j with
      | zero =>
        simp only [List.get?] at hget
        injection hget with hget
        subst hget
        exact List.mem_cons_self _ _
      | succ j' =>
        exact List.mem_cons_of_mem x
          (ih j' a (by simpa using hget) (by simp at hlt ⊢; omega))

theorem issueAtLine_none_of (lines : List (List Char)) (i : Nat)
    (tp sv line : List Char)
    (h : subIn [qc] line = false ∨ lines.length ≤ i + 1) :
    issueAtLine lines i tp sv line = none := by
  unfold issueAtLine
  rw [if_neg]
  rintro ⟨h1, h2⟩
  rcases h with h | h
  · rw [h1] at h; cases h
  · omega

theorem issueAtLine_severity {lines : List (List Char)} {i : Nat}
    {tp sv line : List Char} {iss : Issue}
    (h : issueAtLine lines i tp sv line = some iss) : iss.severity = sv := by
  unfold issueAtLine at h
  split at h
  · split at h
    · injection h with h'
      subst h'
      rfl
    · cases h
  · cases h

theorem scanIssuesAux_nil (lines : List (List Char)) :
    ∀ (entries : List (Nat × List Char)) (tp sv : List Char),
    (∀ e ∈ entries, subIn [qc] e.2 = false ∨ lines.length ≤ e.1 + 1) →
    scanIssuesAux lines entries tp sv = [] := by
  intro entries
  induction entries with
  | nil => intro tp sv _; rfl
  | cons e rest ih =>
    intro tp sv h
    obtain ⟨i, line⟩ := e
    simp only [scanIssuesAux]
    rw [issueAtLine_none_of _ _ _ _ _ (h (i, line) (List.mem_cons_self _ _))]
    exact ih _ _ (fun e he => h e (List.mem_cons_of_mem _ he))

theorem updType_keeps_critical (p : List Char × List Char) (ll : List Char)
    (h : p.2 = str ("critical")) : (updType p ll).2 = str ("critical") := by
  have hne1 : str ("critical") ≠ str ("minor") := by decide
  unfold updType
  split_ifs <;> simp_all

theorem anySub_crit {ll : List Char}
    (h : subIn (str ("critical")) ll = true ∨ subIn (str ("fatal")) ll = true) :
    anySub ll sevCritWords = true := by
  rcases h with h | h <;>
    simp [anySub, sevCritWords, List.any_cons, List.any_nil, h]

theorem stepState_critical (tp sv ll : List Char)
    (h : subIn (str ("critical")) ll = true ∨ subIn (str ("fatal")) ll = true) :
    (stepState tp sv ll).2 = str ("critical") := by
  unfold stepState updSev
  rw [anySub_crit h]
  simp only [if_true]
  exact updType_keeps_critical _ _ rfl

theorem stepState_methodology (tp sv ll : List Char)
    (h : subIn (str ("methodology")) ll = true) :
    (stepState tp sv ll).2 = str ("critical")
      ∨ (stepState tp sv ll).2 = str ("major")
      ∨ (stepState tp sv ll).2 = str ("strength") := by
  unfold stepState updType
  rw [h]
  simp only [Bool.true_or, if_true]
  split_ifs with hc
  · rcases hc with hc | hc
    · exact Or.inl hc
    · exact Or.inr (Or.inr hc)
  · exact Or.inr (Or.inl rfl)

end Rag

namespace Rag

/-! ## Claim theorems -/

/-- Claim C1, counterexample: on the four-line critique of the claim, the
single extracted issue has severity `critical`, not `major` — the heading
`## MAJOR Issues` contains the keyword phrase `major issue`, which
src/utils/groq_client.py:113 maps to `critical`. -/
theorem c1_counterexample :
    (parse_critique_for_issues tC1).map Issue.severity = [str ("critical")]
    ∧ str ("critical") ≠ str ("major") := by
  constructor
  · decide
  · decide

/-- Claim C1 (corrected): for the four-line critique text, the parser
returns exactly one issue whose quoted snippet equals the quoted sentence
and whose page hint is 1, but its severity is `critical` (set by the
`major issue` keyword of the heading), not `major`. -/
theorem c1_amended :
    parse_critique_for_issues tC1 =
      [⟨str ("general"), str ("critical"),
        str ("The study aims to investigate factors affecting student performance."),
        str ("Problem: too broad Suggestion: specify factors"), some 1⟩] := by
  decide

/-- Claim C2, counterexample: an anchor line containing `methodology`
together with the strength keyword `good` yields an issue of severity
`strength`, which is weaker than `major` in the ordering
critical > major > minor > suggestion > strength (the methodology floor at
src/utils/groq_client.py:128 deliberately preserves `strength`). -/
theorem c2_counterexample :
    (parse_critique_for_issues tC2).map Issue.severity = [str ("strength")]
    ∧ (splitLines tC2).head? = some tC2line
    ∧ subIn (str ("methodology")) (lowerL tC2line) = true
    ∧ sevRank (str ("strength")) < sevRank (str ("major")) := by
  refine ⟨by decide, by decide, by decide, by decide⟩

/-- Claim C2 (corrected): for every input, an issue extracted at an anchor
line containing `methodology` has severity `critical`, `major`, or
`strength` (the `strength` case arises when a strength keyword on the same
line set the running severity, which the methodology floor preserves); an
issue whose anchor line contains `critical` or `fatal` always has severity
`critical`. -/
theorem c2_amended (tp sv : List Char) (lines : List (List Char)) (i : Nat)
    (line : List Char) (iss : Issue)
    (h : issueAtLine lines i (stepState tp sv (lowerL line)).1
          (stepState tp sv (lowerL line)).2 line = some iss) :
    (subIn (str ("methodology")) (lowerL line) = true →
      iss.severity = str ("critical") ∨ iss.severity = str ("major")
        ∨ iss.severity = str ("strength"))
    ∧ ((subIn (str ("critical")) (lowerL line) = true
        ∨ subIn (str ("fatal")) (lowerL line) = true) →
      iss.severity = str ("critical")) := by
  have hsev := issueAtLine_severity h
  constructor
  · intro hm
    rw [hsev]
    exact stepState_methodology tp sv (lowerL line) hm
  · intro hc
    rw [hsev]
    exact stepState_critical tp sv (lowerL line) hc

/-- Witness for `c2_amended` at the concrete anchor line of `tC2`. -/
theorem c2_witness :
    (subIn (str ("methodology")) (lowerL tC2line) = true →
      issC2.severity = str ("critical") ∨ issC2.severity = str ("major")
        ∨ issC2.severity = str ("strength"))
    ∧ ((subIn (str ("critical")) (lowerL tC2line) = true
        ∨ subIn (str ("fatal")) (lowerL tC2line) = true) →
      issC2.severity = str ("critical")) :=
  c2_amended (str ("general")) (str ("major")) (splitLines tC2) 0 tC2line issC2
    (by decide)

/-- Claim C10: a quote span on the final line of the input yields no issue
in the line scan — when every line before the last is quote-free, the scan
returns no issues, because extraction at line `i` requires `i + 1` to be a
valid line index. -/
theorem c10_last_line (lines : List (List Char))
    (h : ∀ l ∈ lines.dropLast, subIn [qc] l = false) :
    scanIssues lines = [] := by
  unfold scanIssues
  apply scanIssuesAux_nil
  intro e he
  obtain ⟨i, line⟩ := e
  obtain ⟨j, hj, hi, hget⟩ := enumFrom_mem lines 0 i line he
  by_cases hlt : j + 1 < lines.length
  · exact Or.inl (h line (mem_dropLast_of_get? lines j line hget hlt))
  · right; omega

/-- Witness for `c10_last_line`: a two-line critique whose only (20-200
character) quote span sits on the final line scans to no issues. -/
theorem c10_witness :
    scanIssues lnsC10 = []
    ∧ quoteSpans (str ("- \"a quoted span with well over twenty characters\"")) ≠ [] :=
  ⟨c10_last_line lnsC10 (by decide), by decide⟩

/-- Claim C8, counterexample: a section block containing `Score: -5`
yields the default score 7, not 1 — the score pattern `score:?\s*(\d+)`
requires digits directly after the optional colon and whitespace, so a
negative number does not match and the default applies. -/
theorem c8_counterexample :
    (parse_section_summaries tC8b).map Summary.score = [7]
    ∧ subIn (str ("Score: -5")) tC8b = true
    ∧ (7 : Nat) ≠ 1 := by
  refine ⟨by decide, by decide, by decide⟩

/-- Claim C8 (corrected): every section summary's score lies in `[1, 10]`
(the clamp `min(10, max(1, score))` of src/utils/groq_client.py:316), and
an input whose section block contains `Score: 99/10` yields score 10; but
`Score: -5` does not match the score pattern, so the default 7 — not 1 —
is used. -/
theorem c8_amended :
    (∀ (text : List Char) (s : Summary),
      s ∈ parse_section_summaries text → 1 ≤ s.score ∧ s.score ≤ 10)
    ∧ (parse_section_summaries tC8a).map Summary.score = [10]
    ∧ (parse_section_summaries tC8b).map Summary.score = [7] := by
  refine ⟨?_, by decide, by decide⟩
  intro text s hs
  unfold parse_section_summaries at hs
  obtain ⟨sec, _, hf⟩ := List.mem_filterMap.mp hs
  simp only at hf
  split at hf
  · cases hf
  · split at hf
    · injection hf with hf
      subst hf
      constructor
      · simp only
        omega
      · simp only
        omega
    · cases hf

/-- Witness for the universal part of `c8_amended` at `tC8a`. -/
theorem c8_witness : 1 ≤ sumC8.score ∧ sumC8.score ≤ 10 :=
  c8_amended.1 tC8a sumC8 (by decide)

/-- Claim C9: when the line scan finds no issues, the quote-based fallback
of `parse_critique_for_issues` emits one issue per quote span capped at 5,
each of type `general` and severity `major`; and
`parse_rewrite_suggestions` returns at most 10 rewrites. -/
theorem c9_caps (text : List Char) :
    (scanIssues (splitLines text) = [] →
      (parse_critique_for_issues text).length = min 5 (quoteSpans text).length
      ∧ (parse_critique_for_issues text).length ≤ 5
      ∧ ∀ iss ∈ parse_critique_for_issues text,
          iss.type = str ("general") ∧ iss.severity = str ("major"))
    ∧ (parse_rewrite_suggestions text).length ≤ 10 := by
  have hred : parse_critique_for_issues text =
      (if scanIssues (splitLines text) = [] ∧ quoteSpans text ≠ [] then
        ((quoteSpans text).take 5).map (fun q =>
          (⟨str ("general"), str ("major"), q.take 150,
            str ("Review and revise this section"), none⟩ : Issue))
      else scanIssues (splitLines text)) := rfl
  constructor
  · intro h
    by_cases hq : quoteSpans text = []
    · rw [hred, if_neg (fun hc => hc.2 hq), h, hq]
      simp
    · rw [hred, if_pos ⟨h, hq⟩]
      refine ⟨by simp [List.length_take], ?_, ?_⟩
      · simp only [List.length_map, List.length_take]
        exact Nat.min_le_left 5 _
      · intro iss him
        obtain ⟨q, _, hq2⟩ := List.mem_map.mp him
        subst hq2
        exact ⟨rfl, rfl⟩
  · exact List.length_take_le 10 _

/-- Witness for `c9_caps` at a text whose scan finds nothing but which
contains one quote span. -/
theorem c9_witness :
    ((parse_critique_for_issues tC9).length = min 5 (quoteSpans tC9).length
      ∧ (parse_critique_for_issues tC9).length ≤ 5
      ∧ ∀ iss ∈ parse_critique_for_issues tC9,
          iss.type = str ("general") ∧ iss.severity = str ("major"))
    ∧ (parse_rewrite_suggestions tC9).length ≤ 10 :=
  ⟨(c9_caps tC9).1 (by decide), (c9_caps tC9).2⟩

/-- Claim C6: `validate_pdf` fails exactly when the bytes exceed 10 MB, do
not parse, or the parsed page count is 0 or above 50; success carries an
empty message, failure a non-empty one. The function reads only the byte
length and the open result — it performs no text extraction. -/
theorem c6_validate_pdf (byteLen : Nat) (parsed : Option Nat) (err : List Char) :
    ((validate_pdf byteLen parsed err).1 = false ↔
      (byteLen > 10 * 1048576 ∨ parsed = none
        ∨ ∃ pc, parsed = some pc ∧ (pc = 0 ∨ pc > 50)))
    ∧ ((validate_pdf byteLen parsed err).1 = true →
        (validate_pdf byteLen parsed err).2 = [])
    ∧ ((validate_pdf byteLen parsed err).1 = false →
        (validate_pdf byteLen parsed err).2 ≠ []) := by
  rcases parsed with _ | pc
  · by_cases hb : byteLen > 10 * 1048576
    · simp [validate_pdf, hb, str]
    · simp [validate_pdf, hb, str]
  · by_cases hb : byteLen > 10 * 1048576
    · simp [validate_pdf, hb, str]
    · by_cases h50 : pc > 50
      · simp [validate_pdf, hb, h50, str]
      · by_cases h0 : pc = 0
        · simp [validate_pdf, hb, h50, h0, str]
        · simp [validate_pdf, hb, h50, h0, str]

/-- Witness for `c6_validate_pdf`: a small three-page document passes with
an empty message; a zero-page document fails with a message. -/
theorem c6_witness :
    (validate_pdf 100 (some 3) ([])).2 = []
    ∧ (validate_pdf 100 (some 0) ([])).2 ≠ [] :=
  ⟨(c6_validate_pdf 100 (some 3) ([])).2.1 (by decide),
   (c6_validate_pdf 100 (some 0) ([])).2.2 (by decide)⟩

theorem enumFrom_mem_snd : ∀ (ls : List α) (k : Nat) (e : Nat × α),
    e ∈ enumFrom k ls → e.2 ∈ ls := by
  intro ls
  induction ls with
  | nil => intro k e h; simp [enumFrom] at h
  | cons x t ih =>
    intro k e h
    simp only [enumFrom, List.mem_cons] at h
    rcases h with h | h
    · subst h; exact List.mem_cons_self x t
    · exact List.mem_cons_of_mem x (ih (k + 1) e h)

theorem findRewrites_nil {cs : List Char} (h : qc ∉ cs) : findRewrites cs = [] := by
  unfold findRewrites
  cases cs with
  | nil => rfl
  | cons c t =>
    simp only [List.length_cons]
    simp [findRewritesF, breakQ_none _ h]

theorem sectionAt_none {sec : List Char} {c : Char} {t : List Char} (h : c ≠ '#') :
    sectionAt sec (c :: t) = none := by
  rw [sectionAt.eq_def]
  split
  · next heq => injection heq with h1 _; exact absurd h1 h
  · rfl

theorem sectionSearch_none {sec : List Char} : ∀ {cs : List Char},
    (∀ c ∈ cs, c ≠ '#') → sectionSearch sec cs = none := by
  intro cs
  induction cs with
  | nil => intro _; rfl
  | cons c t ih =>
    intro h
    have h1 := @sectionAt_none sec c t (h c (List.mem_cons_self c t))
    simp [sectionSearch, h1, ih (fun c' hm => h c' (List.mem_cons_of_mem c hm))]

/-- Claim C7: the three parsers are total Lean functions (they cannot
raise), and when no pattern can match — the input has no quote character
and no hash character — all three return the empty list. -/
theorem c7_never_raises (text : List Char)
    (hq : subIn [qc] text = false)
    (hh : subIn [('#' : Char)] text = false) :
    parse_critique_for_issues text = []
    ∧ parse_rewrite_suggestions text = []
    ∧ parse_section_summaries text = [] := by
  have hqm : qc ∉ text := fun hm => by
    rw [(subIn_single qc text).mpr hm] at hq; cases hq
  have hhm : ('#' : Char) ∉ text := fun hm => by
    rw [(subIn_single '#' text).mpr hm] at hh; cases hh
  have hquotes : quoteSpans text = [] := quoteSpans_nil hqm
  have hscan : scanIssues (splitLines text) = [] := by
    unfold scanIssues
    apply scanIssuesAux_nil
    intro e he
    left
    have hline : e.2 ∈ splitLines text := enumFrom_mem_snd _ _ _ he
    rcases hsub : subIn [qc] e.2 with _ | _
    · rfl
    · exact absurd (splitLines_chars text e.2 hline qc ((subIn_single qc e.2).mp hsub))
        hqm
  refine ⟨?_, ?_, ?_⟩
  · have hred : parse_critique_for_issues text =
        (if scanIssues (splitLines text) = [] ∧ quoteSpans text ≠ [] then
          ((quoteSpans text).take 5).map (fun q =>
            (⟨str ("general"), str ("major"), q.take 150,
              str ("Review and revise this section"), none⟩ : Issue))
        else scanIssues (splitLines text)) := rfl
    rw [hred, if_neg (fun hc => hc.2 hquotes), hscan]
  · unfold parse_rewrite_suggestions
    rw [findRewrites_nil hqm]
    rfl
  · unfold parse_section_summaries
    rw [List.filterMap_eq_nil_iff]
    intro sec _
    rw [sectionSearch_none (fun c hm => fun hce => hhm (hce ▸ hm))]

/-- Witness for `c7_never_raises` on a quote-free, hash-free text. -/
theorem c7_witness :
    parse_critique_for_issues (str ("hello world"))  = []
    ∧ parse_rewrite_suggestions (str ("hello world")) = []
    ∧ parse_section_summaries (str ("hello world")) = [] :=
  c7_never_raises (str ("hello world")) (by decide) (by decide)

theorem addIssueAnn_skip (pc : Nat) (found : List Char → Nat → Bool)
    (st : AnnState) (iss : AnnIssue) (h : iss.text_snippet ∈ st.highlighted) :
    addIssueAnn pc found st iss = st := by
  unfold addIssueAnn
  rw [if_pos h]

theorem filterCount_append (hs : List (List Char × Nat)) (t : List Char)
    (p : Nat) (s : List Char) :
    (List.filter (fun h => h.1 = s) (hs ++ [(t, p)])).length =
      (List.filter (fun h => h.1 = s) hs).length + (if t = s then 1 else 0) := by
  simp only [List.filter_append, List.length_append]
  by_cases ht : t = s <;> simp [ht]

theorem addIssueAnn_good (pc : Nat) (found : List Char → Nat → Bool)
    (st : AnnState) (iss : AnnIssue)
    (hg : ∀ s, countFor st s = if s ∈ st.highlighted then 1 else 0) :
    ∀ s, countFor (addIssueAnn pc found st iss) s =
      if s ∈ (addIssueAnn pc found st iss).highlighted then 1 else 0 := by
  obtain ⟨hl, c, hs, nt⟩ := st
  intro s
  by_cases hmem : iss.text_snippet ∈ hl
  · rw [addIssueAnn_skip pc found _ iss hmem]
    exact hg s
  · unfold addIssueAnn
    rw [if_neg hmem]
    rcases hfd : (pagesToSearch pc iss.page_hint).find?
        (fun p => found (iss.text_snippet.take 50) p) with _ | p
    · simp only [hfd]
      rcases hph : iss.page_hint with _ | h
      · simp only [hph]
        exact hg s
      · simp only [hph]
        by_cases hc : h ≠ 0 ∧ h - 1 < pc
        · simp only [if_pos hc]
          exact hg s
        · simp only [if_neg hc]
          exact hg s
    · simp only [hfd]
      show (List.filter (fun h => h.1 = s) (hs ++ [(iss.text_snippet, p)])).length =
        if s ∈ iss.text_snippet :: hl then 1 else 0
      rw [filterCount_append]
      have hg' : (List.filter (fun h => h.1 = s) hs).length =
          if s ∈ hl then 1 else 0 := hg s
      rw [hg']
      by_cases hsnip : iss.text_snippet = s
      · subst hsnip
        rw [if_neg hmem, if_pos (List.mem_cons_self _ _)]
        simp
      · have hmiff : (s ∈ iss.text_snippet :: hl) ↔ s ∈ hl := by
          have hne : s ≠ iss.text_snippet := fun he => hsnip he.symm
          simp [List.mem_cons, hne]
        rw [if_neg hsnip]
        simp [hmiff]

theorem addIssueAnn_mono (pc : Nat) (found : List Char → Nat → Bool)
    (st : AnnState) (iss : AnnIssue) {s : List Char}
    (h : s ∈ st.highlighted) :
    s ∈ (addIssueAnn pc found st iss).highlighted := by
  by_cases hmem : iss.text_snippet ∈ st.highlighted
  · rw [addIssueAnn_skip pc found st iss hmem]
    exact h
  · unfold addIssueAnn
    rw [if_neg hmem]
    rcases hfd : (pagesToSearch pc iss.page_hint).find?
        (fun p => found (iss.text_snippet.take 50) p) with _ | p
    · simp only [hfd]
      rcases hph : iss.page_hint with _ | hh
      · simp only [hph]
        exact h
      · simp only [hph]
        by_cases hc : hh ≠ 0 ∧ hh - 1 < pc
        · simp only [if_pos hc]
          exact h
        · simp only [if_neg hc]
          exact h
    · simp only [hfd]
      exact List.mem_cons_of_mem _ h

theorem addIssueAnn_marks (pc : Nat) (found : List Char → Nat → Bool)
    (st : AnnState) (iss : AnnIssue)
    (hfind : ∃ p ∈ pagesToSearch pc iss.page_hint,
        found (iss.text_snippet.take 50) p = true) :
    iss.text_snippet ∈ (addIssueAnn pc found st iss).highlighted := by
  by_cases hmem : iss.text_snippet ∈ st.highlighted
  · rw [addIssueAnn_skip pc found st iss hmem]
    exact hmem
  · unfold addIssueAnn
    rw [if_neg hmem]
    rcases hfd : (pagesToSearch pc iss.page_hint).find?
        (fun p => found (iss.text_snippet.take 50) p) with _ | p
    · exfalso
      obtain ⟨p, hp, hfp⟩ := hfind
      have hnone := List.find?_eq_none.mp hfd p hp
      rw [hfp] at hnone
      exact hnone rfl
    · simp only [hfd]
      exact List.mem_cons_self _ _

theorem foldl_good (pc : Nat) (found : List Char → Nat → Bool) :
    ∀ (l : List AnnIssue) (st : AnnState),
    (∀ s, countFor st s = if s ∈ st.highlighted then 1 else 0) →
    ∀ s, countFor (l.foldl (addIssueAnn pc found) st) s =
      if s ∈ (l.foldl (addIssueAnn pc found) st).highlighted then 1 else 0 := by
  intro l
  induction l with
  | nil => intro st hg; exact hg
  | cons i t ih => intro st hg; exact ih _ (addIssueAnn_good pc found st i hg)

theorem foldl_mono (pc : Nat) (found : List Char → Nat → Bool) :
    ∀ (l : List AnnIssue) (st : AnnState) {s : List Char},
    s ∈ st.highlighted →
    s ∈ (l.foldl (addIssueAnn pc found) st).highlighted := by
  intro l
  induction l with
  | nil => intro st s h; exact h
  | cons i t ih => intro st s h; exact ih _ (addIssueAnn_mono pc found st i h)

/-- Claim C5: when the issue list contains two issues with an identical
`text_snippet` and the geometric search can locate the first one's snippet
in its page range, exactly one highlight is drawn for that snippet — the
first highlighted occurrence records the snippet in `highlighted_texts`,
and any later issue whose snippet is already recorded is skipped
unchanged. -/
theorem c5_dedup (pc : Nat) (found : List Char → Nat → Bool)
    (pre mid post : List AnnIssue) (i1 i2 : AnnIssue)
    (_hsn : i1.text_snippet = i2.text_snippet)
    (hfind : ∃ p ∈ pagesToSearch pc i1.page_hint,
        found (i1.text_snippet.take 50) p = true) :
    countFor (create_annotated_pdf pc found (pre ++ i1 :: (mid ++ i2 :: post)))
        i1.text_snippet = 1
    ∧ ∀ st : AnnState, i2.text_snippet ∈ st.highlighted →
        addIssueAnn pc found st i2 = st := by
  constructor
  · unfold create_annotated_pdf
    rw [List.foldl_append, List.foldl_cons]
    have hg0 : ∀ s, countFor (pre.foldl (addIssueAnn pc found) ⟨[], 1, [], []⟩) s =
        if s ∈ (pre.foldl (addIssueAnn pc found) ⟨[], 1, [], []⟩).highlighted
        then 1 else 0 :=
      foldl_good pc found pre _ (by intro s; simp [countFor])
    have hmark := addIssueAnn_marks pc found
      (pre.foldl (addIssueAnn pc found) ⟨[], 1, [], []⟩) i1 hfind
    have hg1 := addIssueAnn_good pc found
      (pre.foldl (addIssueAnn pc found) ⟨[], 1, [], []⟩) i1 hg0
    have hgF := foldl_good pc found (mid ++ i2 :: post) _ hg1
    have hmF := foldl_mono pc found (mid ++ i2 :: post) _ hmark
    rw [hgF i1.text_snippet, if_pos hmF]
  · intro st h
    exact addIssueAnn_skip pc found st i2 h

/-- Witness for `c5_dedup`: the same issue twice against an
always-succeeding search oracle yields exactly one highlight. -/
theorem c5_witness :
    countFor (create_annotated_pdf 3 (fun _ _ => true)
        ([] ++ issW :: ([] ++ issW :: []))) issW.text_snippet = 1
    ∧ ∀ st : AnnState, issW.text_snippet ∈ st.highlighted →
        addIssueAnn 3 (fun _ _ => true) st issW = st :=
  c5_dedup 3 (fun _ _ => true) [] [] [] issW issW rfl ⟨0, by decide, rfl⟩

end Rag





namespace Rag

/-! ## Chunker lemmas -/

theorem dropWhile_len_le (p : Char → Bool) : ∀ l : List Char,
    (l.dropWhile p).length ≤ l.length := by
  intro l
  induction l with
  | nil => simp
  | cons c t ih =>
    by_cases h : p c
    · simp [List.dropWhile_cons, h]
      omega
    · simp [List.dropWhile_cons, h]

theorem pstrip_length_le (l : List Char) : (pstrip l).length ≤ l.length := by
  unfold pstrip
  simp only [List.length_reverse]
  exact le_trans (dropWhile_len_le _ _)
    (by simp only [List.length_reverse]; exact dropWhile_len_le _ _)

theorem hasNonWS_nil : hasNonWS [] = false := rfl

theorem hasNonWS_cons (c : Char) (t : List Char) :
    hasNonWS (c :: t) = (!isWS c || hasNonWS t) := by
  simp [hasNonWS, List.any_cons]

theorem hasNonWS_append (a b : List Char) :
    hasNonWS (a ++ b) = (hasNonWS a || hasNonWS b) := by
  simp [hasNonWS, List.any_append]

theorem hasNonWS_of_pstrip_ne {l : List Char} (h : pstrip l ≠ []) :
    hasNonWS l = true := by
  by_contra hn
  apply h
  have hall : ∀ c ∈ l, isWS c = true := by
    intro c hc
    by_contra hw
    exact hn (List.any_eq_true.mpr ⟨c, hc, by simp [Bool.eq_false_iff.mpr hw]⟩)
  have h1 : l.dropWhile isWS = [] :=
    List.dropWhile_eq_nil_iff.mpr (fun x hx => hall x hx)
  simp [pstrip, h1]

theorem pstrip_ne_of_hasNonWS {l : List Char} (h : hasNonWS l = true) :
    pstrip l ≠ [] := by
  unfold pstrip
  intro hcon
  rw [List.reverse_eq_nil_iff, List.dropWhile_eq_nil_iff] at hcon
  obtain ⟨c, hc, hcw⟩ := List.any_eq_true.mp h
  simp only [Bool.not_eq_true'] at hcw
  have hcdrop : c ∈ l.dropWhile isWS := by
    have hsplit := List.takeWhile_append_dropWhile isWS l
    have hm : c ∈ l.takeWhile isWS ∨ c ∈ l.dropWhile isWS := by
      rw [← List.mem_append, hsplit]
      exact hc
    rcases hm with h' | h'
    · have := List.mem_takeWhile_imp h'
      simp [hcw] at this
    · exact h'
  have := hcon c (List.mem_reverse.mpr hcdrop)
  simp [hcw] at this

theorem isTermPunct_not_ws {c : Char} (h : isTermPunct c = true) : isWS c = false := by
  unfold isTermPunct at h
  simp only [Bool.or_eq_true, decide_eq_true_eq] at h
  rcases h with (h | h) | h <;> subst h <;> decide

theorem getLast?_mem' : ∀ (l : List Char) (a : Char), l.getLast? = some a → a ∈ l := by
  intro l
  induction l with
  | nil => intro a h; cases h
  | cons x t ih =>
    intro a h
    cases t with
    | nil =>
      simp [List.getLast?] at h
      subst h
      exact List.mem_cons_self _ _
    | cons y ys =>
      rw [List.getLast?_cons_cons] at h
      exact List.mem_cons_of_mem x (ih a h)

theorem endsPunct_hasNonWS {s : List Char} (h : endsPunct s = true) :
    hasNonWS s = true := by
  unfold endsPunct at h
  rcases hg : s.getLast? with _ | c
  · rw [hg] at h; cases h
  · rw [hg] at h
    exact List.any_eq_true.mpr
      ⟨c, getLast?_mem' s c hg, by simp [isTermPunct_not_ws h]⟩

theorem hasNonWS_append_l {a : List Char} (b : List Char)
    (h : hasNonWS a = true) : hasNonWS (a ++ b) = true := by
  rw [hasNonWS_append, h]
  simp

theorem hasNonWS_append_r (a : List Char) {b : List Char}
    (h : hasNonWS b = true) : hasNonWS (a ++ b) = true := by
  rw [hasNonWS_append, h]
  simp

theorem hasNonWS_cons_tail {s : List Char} (c : Char)
    (h : hasNonWS s = true) : hasNonWS (c :: s) = true := by
  rw [hasNonWS_cons, h]
  simp

theorem lastN_length_of_gt {n : Nat} {l : List Char} (h : n < l.length) :
    (lastN n l).length = n := by
  simp only [lastN, List.length_drop]
  omega

theorem nfp_head {s : List Char} {rest : List (List Char)}
    (h : nfp (s :: rest)) (hne : rest ≠ []) : endsPunct s = true := by
  cases rest with
  | nil => exact absurd rfl hne
  | cons x xs => exact h.1

theorem nfp_tail {s : List Char} {rest : List (List Char)}
    (h : nfp (s :: rest)) : nfp rest := by
  cases rest with
  | nil => trivial
  | cons x xs => exact h.2

theorem hasNonWS_dropWhile_ws : ∀ l : List Char,
    hasNonWS (l.dropWhile isWS) = hasNonWS l := by
  intro l
  induction l with
  | nil => rfl
  | cons c t ih =>
    by_cases h : isWS c
    · rw [List.dropWhile_cons, if_pos h, ih, hasNonWS_cons, h]
      simp
    · rw [List.dropWhile_cons, if_neg h]

theorem hasNonWS_flatten : ∀ L : List (List Char),
    hasNonWS L.flatten = L.any hasNonWS := by
  intro L
  induction L with
  | nil => rfl
  | cons x t ih =>
    rw [List.flatten_cons, hasNonWS_append, ih, List.any_cons]

theorem splitSentsF_ne_nil : ∀ (f : Nat) (cs acc : List Char),
    splitSentsF f cs acc ≠ [] := by
  intro f
  induction f with
  | zero => intro cs acc; simp [splitSentsF]
  | succ f ih =>
    intro cs acc
    cases cs with
    | nil => simp [splitSentsF]
    | cons c rest =>
      simp only [splitSentsF]
      split
      · simp
      · exact ih rest (c :: acc)

theorem splitSentsF_nfp : ∀ (f : Nat) (cs acc : List Char),
    nfp (splitSentsF f cs acc) := by
  intro f
  induction f with
  | zero => intro cs acc; simp [splitSentsF, nfp]
  | succ f ih =>
    intro cs acc
    cases cs with
    | nil => simp [splitSentsF, nfp]
    | cons c rest =>
      simp only [splitSentsF]
      split
      · next hcond =>
        rcases hr : splitSentsF f (rest.dropWhile isWS) [] with _ | ⟨x, xs⟩
        · exact absurd hr (splitSentsF_ne_nil f _ _)
        · refine ⟨?_, ?_⟩
          · unfold endsPunct
            rw [List.getLast?_concat]
            exact ((Bool.and_eq_true _ _).mp hcond).1
          · have hn := ih (rest.dropWhile isWS) []
            rw [hr] at hn
            exact hn
      · exact ih rest (c :: acc)

theorem splitSentsF_nonws : ∀ (f : Nat) (cs acc : List Char), cs.length ≤ f →
    hasNonWS (List.flatten (splitSentsF f cs acc))
      = hasNonWS (acc.reverse ++ cs) := by
  intro f
  induction f with
  | zero =>
    intro cs acc hf
    have hnil : cs = [] := List.length_eq_zero.mp (Nat.le_zero.mp hf)
    subst hnil
    simp [splitSentsF]
  | succ f ih =>
    intro cs acc hf
    cases cs with
    | nil => simp [splitSentsF]
    | cons c rest =>
      simp only [splitSentsF]
      split
      · next hcond =>
        have hlen : (rest.dropWhile isWS).length ≤ f :=
          le_trans (dropWhile_len_le _ _) (by simp at hf; omega)
        have hrec := ih (rest.dropWhile isWS) [] hlen
        simp only [List.reverse_nil, List.nil_append] at hrec
        rw [List.flatten_cons, hasNonWS_append, hrec, hasNonWS_dropWhile_ws,
          hasNonWS_append, hasNonWS_append, hasNonWS_cons, hasNonWS_cons,
          hasNonWS_nil]
        simp [Bool.or_assoc]
      · have hrec := ih rest (c :: acc) (by simp at hf ⊢; omega)
        rw [hrec, List.reverse_cons, List.append_assoc, List.cons_append,
          List.nil_append]

theorem exists_sentence_nonws {t : List Char} (h : pstrip t ≠ []) :
    ∃ s ∈ splitSentences t, hasNonWS s = true := by
  have hNW := hasNonWS_of_pstrip_ne h
  have hj : hasNonWS (List.flatten (splitSentences t)) = true := by
    unfold splitSentences
    rw [splitSentsF_nonws t.length t [] (le_refl _)]
    simpa using hNW
  rw [hasNonWS_flatten] at hj
  exact List.any_eq_true.mp hj

theorem foldl_max_init_le : ∀ (L : List (List Char)) (init : Nat),
    init ≤ L.foldl (fun m s => max m s.length) init := by
  intro L
  induction L with
  | nil => intro init; exact Nat.le_refl _
  | cons x t ih => intro init; exact le_trans (Nat.le_max_left _ _) (ih _)

theorem le_foldl_max : ∀ (L : List (List Char)) (init : Nat) (s : List Char),
    s ∈ L → s.length ≤ L.foldl (fun m x => max m x.length) init := by
  intro L
  induction L with
  | nil => intro init s h; simp at h
  | cons x t ih =>
    intro init s h
    rcases List.mem_cons.mp h with h | h
    · subst h
      exact le_trans (Nat.le_max_right _ _) (foldl_max_init_le t _)
    · exact ih _ s h

theorem sentence_le_longest {t s : List Char} (h : s ∈ splitSentences t) :
    s.length ≤ longestSentence t :=
  le_foldl_max _ 0 s h

theorem one_le_longestSentence {t : List Char} (h : pstrip t ≠ []) :
    1 ≤ longestSentence t := by
  obtain ⟨s, hs, hsNW⟩ := exists_sentence_nonws h
  obtain ⟨c, hc, _⟩ := List.any_eq_true.mp hsNW
  exact le_trans (List.length_pos.mpr (List.ne_nil_of_mem hc))
    (sentence_le_longest hs)

end Rag

namespace Rag

theorem chunkGo_props (pgn csz ov L : Nat) (hov : ov + 1 ≤ csz) (hL : 1 ≤ L) :
    ∀ (sents : List (List Char)) (cur : List Char) (start id : Nat),
    nfp sents →
    (∀ s ∈ sents, s.length ≤ L) →
    cur.length ≤ csz + L →
    (sents ≠ [] → (cur = [] ∨ hasNonWS cur = true)) →
    ∀ c ∈ (chunkGo pgn csz ov sents cur start id).1,
      c.page_num = pgn ∧ 1 ≤ c.text.length ∧ c.text.length ≤ csz + L := by
  intro sents
  induction sents with
  | nil =>
    intro cur start id _ _ hcur _ c hc
    simp only [chunkGo] at hc
    split at hc
    · next hne =>
      simp only [List.mem_singleton] at hc
      subst hc
      exact ⟨rfl, List.length_pos.mpr hne, le_trans (pstrip_length_le cur) hcur⟩
    · simp at hc
  | cons s rest ih =>
    intro cur start id hnfp hlen hcur hJ c hc
    have hsL : s.length ≤ L := hlen s (List.mem_cons_self _ _)
    have hrestL : ∀ x ∈ rest, x.length ≤ L :=
      fun x hx => hlen x (List.mem_cons_of_mem _ hx)
    have hnfpr : nfp rest := nfp_tail hnfp
    simp only [chunkGo] at hc
    split at hc
    · next hover =>
      have hcurNW : hasNonWS cur = true := by
        rcases hJ (by simp) with h0 | h0
        · exact absurd h0 hover.2
        · exact h0
      split at hc
      · next hbig =>
        simp only [List.mem_cons] at hc
        rcases hc with rfl | hc
        · exact ⟨rfl, List.length_pos.mpr (pstrip_ne_of_hasNonWS hcurNW),
            le_trans (pstrip_length_le cur) hcur⟩
        · refine ih _ _ _ hnfpr hrestL ?_ ?_ c hc
          · have hlast : (lastN ov cur).length = ov := lastN_length_of_gt hbig
            simp only [List.length_append, List.length_cons, hlast]
            omega
          · intro hne
            right
            exact hasNonWS_append_r _
              (hasNonWS_cons_tail _ (endsPunct_hasNonWS (nfp_head hnfp hne)))
      · next hsmall =>
        simp only [List.mem_cons] at hc
        rcases hc with rfl | hc
        · exact ⟨rfl, List.length_pos.mpr (pstrip_ne_of_hasNonWS hcurNW),
            le_trans (pstrip_length_le cur) hcur⟩
        · refine ih _ _ _ hnfpr hrestL (by omega) ?_ c hc
          intro hne
          right
          exact endsPunct_hasNonWS (nfp_head hnfp hne)
    · next hnover =>
      by_cases hc0 : cur = []
      · rw [if_pos hc0] at hc
        refine ih _ _ _ hnfpr hrestL (by omega) ?_ c hc
        intro hne
        right
        exact endsPunct_hasNonWS (nfp_head hnfp hne)
      · rw [if_neg hc0] at hc
        have hle : cur.length + s.length ≤ csz := by
          by_contra hgt
          exact hnover ⟨by omega, hc0⟩
        refine ih _ _ _ hnfpr hrestL ?_ ?_ c hc
        · simp only [List.length_append, List.length_cons]
          omega
        · intro hne
          right
          apply hasNonWS_append_l
          rcases hJ (by simp) with h0 | h0
          · exact absurd h0 hc0
          · exact h0

theorem chunkGo_ne (pgn csz ov : Nat) :
    ∀ (sents : List (List Char)) (cur : List Char) (start id : Nat),
    ((∃ s ∈ sents, hasNonWS s = true) ∨ pstrip cur ≠ []) →
    (chunkGo pgn csz ov sents cur start id).1 ≠ [] := by
  intro sents
  induction sents with
  | nil =>
    intro cur start id h
    rcases h with ⟨s, hs, _⟩ | h
    · simp at hs
    · simp only [chunkGo]
      rw [if_pos h]
      simp
  | cons s rest ih =>
    intro cur start id h
    simp only [chunkGo]
    split
    · split
      · simp
      · simp
    · next hnover =>
      apply ih
      rcases h with ⟨s', hs', hNW⟩ | hpne
      · rcases List.mem_cons.mp hs' with rfl | hs'
        · right
          apply pstrip_ne_of_hasNonWS
          by_cases hc0 : cur = []
          · rw [if_pos hc0]
            exact hNW
          · rw [if_neg hc0]
            exact hasNonWS_append_r _ (hasNonWS_cons_tail _ hNW)
        · left
          exact ⟨s', hs', hNW⟩
      · right
        apply pstrip_ne_of_hasNonWS
        have hNWcur := hasNonWS_of_pstrip_ne hpne
        have hc0 : cur ≠ [] := by
          intro h0
          rw [h0] at hNWcur
          cases hNWcur
        rw [if_neg hc0]
        exact hasNonWS_append_l _ hNWcur

theorem chunkPage_mem_props (pg : PageData) (k : Nat) (c : Chunk)
    (hc : c ∈ (chunkPage pg 500 100 k).1) :
    c.page_num = pg.page_num ∧ 1 ≤ c.text.length
      ∧ c.text.length ≤ 500 + longestSentence pg.text := by
  unfold chunkPage at hc
  split at hc
  · simp at hc
  · next hguard =>
    exact chunkGo_props pg.page_num 500 100 (longestSentence pg.text)
      (by omega) (one_le_longestSentence hguard)
      (splitSentences pg.text) [] 0 k
      (splitSentsF_nfp _ _ _)
      (fun s hs => sentence_le_longest hs)
      (by simp)
      (fun _ => Or.inl rfl) c hc

theorem chunkPage_ne (pg : PageData) (csz ov k : Nat) (h : pstrip pg.text ≠ []) :
    (chunkPage pg csz ov k).1 ≠ [] := by
  unfold chunkPage
  rw [if_neg h]
  exact chunkGo_ne _ _ _ _ _ _ _ (Or.inl (exists_sentence_nonws h))

theorem chunkPage_nil (pg : PageData) (csz ov k : Nat) (h : pstrip pg.text = []) :
    (chunkPage pg csz ov k).1 = [] := by
  unfold chunkPage
  rw [if_pos h]

theorem chunkFold_mem (csz ov : Nat) :
    ∀ (pages : List PageData) (acc : List Chunk) (id : Nat) (c : Chunk),
    c ∈ (pages.foldl (fun st pg =>
        let r := chunkPage pg csz ov st.2
        (st.1 ++ r.1, r.2)) (acc, id)).1 →
    c ∈ acc ∨ ∃ pg ∈ pages, ∃ k, c ∈ (chunkPage pg csz ov k).1 := by
  intro pages
  induction pages with
  | nil => intro acc id c hc; exact Or.inl hc
  | cons pg rest ih =>
    intro acc id c hc
    rw [List.foldl_cons] at hc
    rcases ih _ _ c hc with hacc | ⟨pg', hpg', k, hk⟩
    · rcases List.mem_append.mp hacc with h1 | h1
      · exact Or.inl h1
      · exact Or.inr ⟨pg, List.mem_cons_self _ _, id, h1⟩
    · exact Or.inr ⟨pg', List.mem_cons_of_mem _ hpg', k, hk⟩

theorem chunk_text_mem (pages : List PageData) (c : Chunk)
    (hc : c ∈ chunk_text pages) :
    ∃ pg ∈ pages, ∃ k, c ∈ (chunkPage pg 500 100 k).1 := by
  unfold chunk_text at hc
  rcases chunkFold_mem 500 100 pages [] 0 c hc with h | h
  · simp at h
  · exact h

/-- Claim C3, counterexample: for the one-page input whose two sentences
are separated by a newline, the chunker produces a single chunk whose text
is NOT the page text — the sentence split drops the newline separator and
the sentences are rejoined with a single space, so concatenating the
chunks (there is only one, with no overlap to remove) cannot reconstruct
the page. -/
theorem c3_counterexample :
    (chunk_text [pgC3]).map Chunk.text = [str ("Hi. Bye.")]
    ∧ (chunk_text [pgC3]).length = 1
    ∧ str ("Hi. Bye.") ≠ pgC3.text := by
  refine ⟨by decide, by decide, by decide⟩

/-- Claim C3 (corrected): no chunk spans two pages — every chunk of
`chunk_text` carries the page number of one of the input pages and is an
element of that page's own chunk list, which is computed from that page's
text alone; a page with non-whitespace text yields at least one chunk; a
page with empty or whitespace-only text yields zero chunks. The exact
reconstruction clause of the claim is false: the splitter collapses
inter-sentence whitespace to single spaces (see the counterexample). -/
theorem c3_amended :
    (∀ (pages : List PageData) (c : Chunk), c ∈ chunk_text pages →
      ∃ pg ∈ pages, c.page_num = pg.page_num
        ∧ ∃ k, c ∈ (chunkPage pg 500 100 k).1)
    ∧ (∀ (pg : PageData) (k : Nat), pstrip pg.text ≠ [] →
        (chunkPage pg 500 100 k).1 ≠ [])
    ∧ (∀ (pg : PageData) (k : Nat), pstrip pg.text = [] →
        (chunkPage pg 500 100 k).1 = []) := by
  refine ⟨?_, ?_, ?_⟩
  · intro pages c hc
    obtain ⟨pg, hpg, k, hk⟩ := chunk_text_mem pages c hc
    exact ⟨pg, hpg, (chunkPage_mem_props pg k c hk).1, k, hk⟩
  · intro pg k h
    exact chunkPage_ne pg 500 100 k h
  · intro pg k h
    exact chunkPage_nil pg 500 100 k h

/-- Witness for `c3_amended` on a concrete page, a concrete chunk and a
blank page. -/
theorem c3_witness :
    (∃ pg ∈ [pgW], cW.page_num = pg.page_num
      ∧ ∃ k, cW ∈ (chunkPage pg 500 100 k).1)
    ∧ (chunkPage pgW 500 100 0).1 ≠ []
    ∧ (chunkPage pgBlank 500 100 0).1 = [] :=
  ⟨c3_amended.1 [pgW] cW (by decide),
   c3_amended.2.1 pgW 0 (by decide),
   c3_amended.2.2 pgBlank 0 (by decide)⟩

/-- Claim C4: with the default chunk size 500 and overlap 100, every chunk
produced by `chunk_text` (in particular every non-final chunk of each
page) has text length at least 1 and at most 500 plus the length of the
longest sentence of its page. -/
theorem c4_chunk_size_bound (pages : List PageData) (c : Chunk)
    (h : c ∈ chunk_text pages) :
    ∃ pg ∈ pages, c.page_num = pg.page_num ∧ 1 ≤ c.text.length
      ∧ c.text.length ≤ 500 + longestSentence pg.text := by
  obtain ⟨pg, hpg, k, hk⟩ := chunk_text_mem pages c h
  obtain ⟨h1, h2, h3⟩ := chunkPage_mem_props pg k c hk
  exact ⟨pg, hpg, h1, h2, h3⟩

/-- Witness for `c4_chunk_size_bound` on a concrete one-page input. -/
theorem c4_witness :
    ∃ pg ∈ [pgW], cW.page_num = pg.page_num ∧ 1 ≤ cW.text.length
      ∧ cW.text.length ≤ 500 + longestSentence pg.text :=
  c4_chunk_size_bound [pgW] cW (by decide)

end Rag
